import Mathlib

/-!
# btcsearch

A shallow embedding of `mainscript.go`: the address derivation pipeline
(`publicKeyToAddress`, `sha256Checksum`), key formatting
(`generateKeyAndAddress`), the target set (`readAddresses`) and one iteration of
the `worker` loop, followed by the properties proved about them.

Go values are represented as follows.

* `byte` is `Fin 256`; `[]byte` and `string` are lists of bytes (a Go string is a
  byte sequence, and the program never looks at it in any other way).
* `*big.Int` values that are never negative (curve coordinates, the private
  scalar) are natural numbers.
* `map[string]bool` is an association list; an assignment replaces the entry of
  its key.
* The two hash functions are parameters: nothing in the program depends on how
  they compute their digests.
* The other imported packages (`math/big`, `encoding/hex`, `btcutil/base58`,
  `bufio`) are not part of the program; the functions it calls from them are
  written out after their documented behaviour, under the names they have there.
* Everything the operating system decides (the random source, whether a file can
  be opened or written) is an explicit input of the function that asks for it.
-/

namespace Btcsearch

/-! ## Bytes and strings -/

/-- Go's `byte`. -/
abbrev Byte := Fin 256

/-- Go's `[]byte`. -/
abbrev Bytes := List Byte

/-- Go's `string`, a sequence of bytes. -/
abbrev GoString := List Byte

/-- Go's `error`, kept as its message. -/
abbrev GoError := GoString

deriving instance DecidableEq for Except

/-- The bytes of a string literal of the source. All literals of the program are
ASCII, for which the byte of a character is its code point. -/
def goStr (s : String) : GoString := s.toList.map (fun c => Fin.ofNat c.toNat)

/-! ## `math/big` -/

/-- The digits of `n` in base `base`, least significant first, by repeated
division: `for x > 0 { x, mod = x / base, x % base; emit mod }`. The first
argument bounds the number of rounds; `n` rounds always suffice
(`toDigitsLE_eq_digits`). -/
def toDigitsLE (base : Nat) : Nat → Nat → List Nat
  | 0, _ => []
  | fuel + 1, n => if n = 0 then [] else (n % base) :: toDigitsLE base fuel (n / base)

/-- The method `(*big.Int).Bytes` on a non-negative value: its big-endian bytes
without leading zero bytes; zero has no bytes. -/
def bigBytes (n : Nat) : Bytes :=
  ((toDigitsLE 256 n n).map (fun d => (Fin.ofNat d : Byte))).reverse

/-- The method `(*big.Int).SetBytes`: the value of a big-endian unsigned byte
string. -/
def bigSetBytes (b : Bytes) : Nat := b.foldl (fun acc x => acc * 256 + x.val) 0

/-- The method `(*big.Int).BitLen`: the length of the value in bits, that is the
number of its binary digits; zero has length 0. -/
def bitLen (n : Nat) : Nat := (toDigitsLE 2 n n).length

/-! ## `encoding/hex` -/

/-- The digit table of `encoding/hex`. -/
def hextable : GoString := goStr "0123456789abcdef"

/-- The function `hex.EncodeToString`: two digits per byte, `hextable[v>>4]` then
`hextable[v&0x0f]`. -/
def hexEncodeToString (src : Bytes) : GoString :=
  src.flatMap (fun v => [hextable.getD (v.val / 16) 0, hextable.getD (v.val % 16) 0])

/-- The function `fromHexChar` of `encoding/hex`: the value of a hexadecimal
digit, in either case. -/
def fromHexChar (c : Byte) : Option Nat :=
  if '0'.toNat ≤ c.val ∧ c.val ≤ '9'.toNat then some (c.val - '0'.toNat)
  else if 'a'.toNat ≤ c.val ∧ c.val ≤ 'f'.toNat then some (c.val - 'a'.toNat + 10)
  else if 'A'.toNat ≤ c.val ∧ c.val ≤ 'F'.toNat then some (c.val - 'A'.toNat + 10)
  else none

/-- The number a string of hexadecimal digits denotes when read as a base-16
numeral after the value `acc` of the digits before it; `none` when a byte is not
a hexadecimal digit. -/
def hexNumeralFrom : GoString → Nat → Option Nat
  | [], acc => some acc
  | c :: t, acc =>
    match fromHexChar c with
    | none => none
    | some d => hexNumeralFrom t (acc * 16 + d)

/-- The number a string denotes when read as a base-16 numeral. -/
def hexNumeral (s : GoString) : Option Nat := hexNumeralFrom s 0

/-! ## `btcutil/base58` -/

/-- The base-58 alphabet of `btcutil/base58`. -/
def alphabet : GoString := goStr "123456789ABCDEFGHJKLMNPQRSTUVWXYZabcdefghijkmnopqrstuvwxyz"

/-- The digit for zero, `alphabet[0]`. -/
def alphabetIdx0 : Byte := Fin.ofNat '1'.toNat

/-- The function `base58.Encode`: the base-58 digits of the big-endian value of
`b`, produced least significant first, then one `alphabetIdx0` per leading zero
byte of `b`, and the whole reversed. (The library divides by a power of 58 to
produce several digits per division; the digits are the same.) -/
def base58Encode (b : Bytes) : GoString :=
  let x := bigSetBytes b
  let answer := (toDigitsLE 58 x x).map (fun m => alphabet.getD m 0)
  let answer := answer ++ List.replicate (b.takeWhile (fun i => i = 0)).length alphabetIdx0
  answer.reverse

/-- The reverse table `b58` of `btcutil/base58`: the digit value of a byte of the
alphabet, 255 for every other byte. -/
def b58 (c : Byte) : Nat :=
  let i := alphabet.indexOf c
  if i < 58 then i else 255

/-- The value accumulated by `base58.Decode`, most significant digit first;
`none` when a byte is not in the alphabet. -/
def b58Value : GoString → Nat → Option Nat
  | [], answer => some answer
  | c :: t, answer => if b58 c = 255 then none else b58Value t (answer * 58 + b58 c)

/-- The function `base58.Decode`: the bytes of the accumulated value after one
zero byte per leading `alphabetIdx0`; the empty slice when a byte is not in the
alphabet. -/
def base58Decode (s : GoString) : Bytes :=
  match b58Value s 0 with
  | none => []
  | some answer =>
    let tmpval := bigBytes answer
    let numZeros := (s.takeWhile (fun c => c = alphabetIdx0)).length
    List.replicate numZeros 0 ++ tmpval

/-! ## Address derivation (`mainscript.go`, lines 66–110) -/

/-- The two digest functions the program imports: `crypto/sha256` (`New`, `Write`,
`Sum(nil)`) and `x/crypto/ripemd160`, each as the map from the bytes written to
the digest returned. -/
structure Hashes where
  sha256 : Bytes → Bytes
  ripemd160 : Bytes → Bytes

/-- What the properties below assume of the digests: their lengths. -/
def Hashes.WellSized (H : Hashes) : Prop :=
  (∀ x, (H.sha256 x).length = 32) ∧ (∀ x, (H.ripemd160 x).length = 20)

/-- The type `ecdsa.PublicKey`, its two coordinates. -/
structure PublicKey where
  X : Nat
  Y : Nat
  deriving DecidableEq

/-- The type `ecdsa.PrivateKey`: the public key and the private scalar `D`. -/
structure PrivateKey where
  PublicKey : PublicKey
  D : Nat
  deriving DecidableEq

/-- The function `sha256Checksum` (lines 100–110). -/
def sha256Checksum (H : Hashes) (input : Bytes) : Bytes :=
  let result := H.sha256 input
  let finalResult := H.sha256 result
  finalResult.take 4

/-- The function `publicKeyToAddress` (lines 81–98); its error result is always
`nil`. -/
def publicKeyToAddress (H : Hashes) (publicKey : PublicKey) : Except GoError GoString :=
  let pubKeyBytes := bigBytes publicKey.X ++ bigBytes publicKey.Y
  let sha256Result := H.sha256 pubKeyBytes
  let ripemd160Result := H.ripemd160 sha256Result
  let networkVersion : Byte := 0
  let addressBytes := [networkVersion] ++ ripemd160Result
  let checksum := sha256Checksum H addressBytes
  let fullAddress := addressBytes ++ checksum
  .ok (base58Encode fullAddress)

/-- The function `generateKeyAndAddress` (lines 66–79). `rnd` is the result of
`ecdsa.GenerateKey(elliptic.P256(), rand.Reader)`. -/
def generateKeyAndAddress (H : Hashes) (rnd : Except GoError PrivateKey) :
    Except GoError (GoString × GoString) :=
  match rnd with
  | .error err => .error err
  | .ok privateKey =>
    let publicKey := privateKey.PublicKey
    match publicKeyToAddress H publicKey with
    | .error err => .error err
    | .ok address => .ok (hexEncodeToString (bigBytes privateKey.D), address)

/-! ## The target set (`readAddresses`, lines 45–64) -/

/-- Go's `map[string]bool`, as the list of its entries. -/
abbrev GoMap := List (GoString × Bool)

/-- The assignment `m[k] = v`: the entry for `k` replaces an earlier one. -/
def GoMap.set (m : GoMap) (k : GoString) (v : Bool) : GoMap :=
  (k, v) :: m.filter (fun e => !decide (e.1 = k))

/-- The lookup `v, exists := m[k]`: the entry for `k`, if there is one. -/
def GoMap.lookup : GoMap → GoString → Option Bool
  | [], _ => none
  | (k', v) :: m, k => if k' = k then some v else GoMap.lookup m k

/-- The number of entries, `len(m)`. -/
def GoMap.len (m : GoMap) : Nat := m.length

/-- The keys of a map. -/
def GoMap.keys (m : GoMap) : List GoString := m.map Prod.fst

/-- The test `_, exists := m[k]; exists` (line 123). -/
def GoMap.has (m : GoMap) (k : GoString) : Bool := (m.lookup k).isSome

/-- The constant `bufio.MaxScanTokenSize`, the size a `Scanner` buffer may grow
to. -/
def maxScanTokenSize : Nat := 64 * 1024

/-- The error `bufio.ErrTooLong`. -/
def errTooLong : GoError := goStr "bufio.Scanner: token too long"

/-- The function `dropCR` of `bufio`: drops one trailing carriage return. -/
def dropCR (data : Bytes) : Bytes :=
  if data.getLast? = some 13 then data.dropLast else data

/-- The tokens a `bufio.Scanner` with its default split function `ScanLines`
delivers for the unread input, `line` being the bytes buffered since the last
newline. A token ends at a newline, or at the end of the input when bytes are
left over, and is passed through `dropCR`. The scanner gives up with `ErrTooLong`
once its buffer holds `maxScanTokenSize` bytes without a newline. -/
def scanLines : Bytes → Bytes → Except GoError (List GoString)
  | [], line => .ok (if line = [] then [] else [dropCR line])
  | c :: rest, line =>
    if c = 10 then
      match scanLines rest [] with
      | .error err => .error err
      | .ok tokens => .ok (dropCR line :: tokens)
    else if line.length + 1 ≥ maxScanTokenSize then .error errTooLong
    else scanLines rest (line ++ [c])

/-- A list of pieces without its last piece when that one is empty. -/
def trimLast (pieces : List Bytes) : List Bytes :=
  if pieces.getLast? = some [] then pieces.dropLast else pieces

/-- The newline-delimited lines of a file content, byte for byte as written: the
pieces between the newlines, where what follows the last newline is a line only
when it is not empty. -/
def rawLines (content : Bytes) : List Bytes :=
  trimLast (List.splitOn (10 : Byte) content)

/-- The loop `for scanner.Scan() { addresses[scanner.Text()] = true }` (lines
55–57) over the tokens the scanner delivers. -/
def addLines (tokens : List GoString) (addresses : GoMap) : GoMap :=
  tokens.foldl (fun m t => m.set t true) addresses

/-- The function `readAddresses` (lines 45–64). `file` is what `os.Open(filePath)`
gives: an error, or the content of the file. -/
def readAddresses (file : Except GoError Bytes) : Except GoError GoMap :=
  let addresses : GoMap := []
  match file with
  | .error err => .error err
  | .ok content =>
    match scanLines content [] with
    | .error err => .error err
    | .ok tokens => .ok (addLines tokens addresses)

/-! ## The worker loop (`worker`, lines 112–145) -/

/-- What one worker does that another party can observe, in program order. -/
inductive Event where
  /-- The `log.Printf` of line 118. -/
  | logGenerateFailed (id : Int) (err : GoError)
  /-- The `fmt.Printf` of line 125. -/
  | printMatchFound (privateKey publicAddress : GoString)
  /-- The `mutex.Lock()` of line 127, once it has the mutex. -/
  | mutexLock
  /-- The call of `os.OpenFile` of line 128, whether or not it succeeds. -/
  | openFile (name : GoString)
  /-- The `log.Printf` of line 130. -/
  | logOpenFailed (id : Int) (err : GoError)
  /-- The `file.WriteString` of line 135, with the bytes that reached the file. -/
  | writeString (written : GoString)
  /-- The `log.Printf` of line 136. -/
  | logWriteFailed (id : Int) (err : GoError)
  /-- The `file.Close()` of line 138. -/
  | fileClose
  /-- The `mutex.Unlock()` of lines 131 and 139. -/
  | mutexUnlock
  /-- The `fmt.Printf` of line 142, the report of the attempt. -/
  | printAttempt (privateKey publicAddress matchFound : GoString)
  /-- The `time.Sleep` of line 143, in milliseconds. -/
  | sleep (ms : Nat)
  deriving DecidableEq

/-- The state a worker acts on: the mutex shared by the workers, the files by
name (`none` for a name that does not exist), and the events so far. -/
structure World where
  mutexLocked : Bool
  files : GoString → Option Bytes
  trace : List Event

/-- Records an event. -/
def World.emit (w : World) (e : Event) : World := { w with trace := w.trace ++ [e] }

/-- A successful `os.OpenFile(name, O_APPEND|O_CREATE|O_WRONLY, 0644)`: the file
exists afterwards, empty if it was created. -/
def World.openAppend (w : World) (name : GoString) : World :=
  { w with files := Function.update w.files name (some ((w.files name).getD [])) }

/-- Bytes reaching the end of a file opened with `O_APPEND`. -/
def World.append (w : World) (name : GoString) (data : Bytes) : World :=
  { w with files := Function.update w.files name (some ((w.files name).getD [] ++ data)) }

/-- What the operating system decides during one iteration. -/
structure Env where
  /-- The result of `ecdsa.GenerateKey(elliptic.P256(), rand.Reader)`. -/
  rnd : Except GoError PrivateKey
  /-- The error of `os.OpenFile`, `none` when the file is opened. -/
  openErr : Option GoError
  /-- The failure of `WriteString`, `none` when the whole string is written:
  the number of bytes written before the error, and the error. -/
  writeErr : Option (Nat × GoError)

/-- How an iteration ends. -/
inductive Step where
  /-- The iteration reached its end, or a `continue`: the loop starts over. -/
  | next (w : World)
  /-- The worker waits in `mutex.Lock()` for another worker to unlock. -/
  | blocked (w : World)

/-- Lines 142–143: the report of the attempt and the pause. -/
def reportAndSleep (privateKey publicAddress matchFound : GoString) (w : World) : Step :=
  let w := w.emit (.printAttempt privateKey publicAddress matchFound)
  let w := w.emit (.sleep 100)
  .next w

/-- One pass through the body of the `for` loop of `worker` (lines 116–143). -/
def workerIteration (H : Hashes) (id : Int) (outputFile : GoString) (btcAddresses : GoMap)
    (env : Env) (w : World) : Step :=
  match generateKeyAndAddress H env.rnd with
  | .error err => .next (w.emit (.logGenerateFailed id err))
  | .ok (privateKey, publicAddress) =>
    let matchFound := goStr "No"
    if btcAddresses.has publicAddress then
      let matchFound := goStr "Yes"
      let w := w.emit (.printMatchFound privateKey publicAddress)
      if w.mutexLocked then .blocked w
      else
        let w := { w with mutexLocked := true }.emit .mutexLock
        let w := w.emit (.openFile outputFile)
        match env.openErr with
        | some err =>
          let w := w.emit (.logOpenFailed id err)
          let w := { w with mutexLocked := false }.emit .mutexUnlock
          .next w
        | none =>
          let w := w.openAppend outputFile
          let line := privateKey ++ goStr ":" ++ publicAddress ++ goStr "\n"
          let w :=
            match env.writeErr with
            | none => (w.append outputFile line).emit (.writeString line)
            | some (n, err) =>
              ((w.append outputFile (line.take n)).emit (.writeString (line.take n))).emit
                (.logWriteFailed id err)
          let w := w.emit .fileClose
          let w := { w with mutexLocked := false }.emit .mutexUnlock
          reportAndSleep privateKey publicAddress matchFound w
    else reportAndSleep privateKey publicAddress matchFound w

/-- The loop of `worker` run for as many iterations as `envs` has entries. The
loop itself has no exit. -/
def worker (H : Hashes) (id : Int) (outputFile : GoString) (btcAddresses : GoMap) :
    List Env → World → Step
  | [], w => .next w
  | env :: envs, w =>
    match workerIteration H id outputFile btcAddresses env w with
    | .next w => worker H id outputFile btcAddresses envs w
    | .blocked w => .blocked w

/-! ## The mutex along a trace -/

/-- The events of the critical section of lines 128–138: the file operations and
the logs of their failures. -/
def Event.isFileStep : Event → Bool
  | .openFile _ => true
  | .logOpenFailed _ _ => true
  | .writeString _ => true
  | .logWriteFailed _ _ => true
  | .fileClose => true
  | _ => false

/-- Replays the events of one worker against the mutex, `held` telling whether the
worker holds it: the mutex is locked only when free and unlocked only when held,
the events that happen while it is held are exactly the file steps, and it is
free at the end. -/
def lockScoped : Bool → List Event → Bool
  | held, [] => !held
  | held, .mutexLock :: evs => !held && lockScoped true evs
  | held, .mutexUnlock :: evs => held && lockScoped false evs
  | held, e :: evs => (e.isFileStep == held) && lockScoped held evs

/-- Whether an event is the report of an attempt (line 142). -/
def Event.isReport : Event → Bool
  | .printAttempt _ _ _ => true
  | _ => false

/-! ## Concrete inputs -/

/-- Digest functions of the right sizes used at concrete inputs: the input padded
with zero bytes and cut to 32, respectively 20, bytes. -/
def paddingHashes : Hashes where
  sha256 := fun x => (x ++ List.replicate 32 0).take 32
  ripemd160 := fun x => (x ++ List.replicate 20 0).take 20

/-- A key whose private scalar is `0x0102`. -/
def sampleKey : PrivateKey := ⟨⟨1, 2⟩, 0x0102⟩

/-- The address `publicKeyToAddress` derives for `sampleKey` under `paddingHashes`. -/
def sampleAddress : GoString := goStr "16L59wxGJZqYgzcvjQ4AAE666geqf8aYX"

/-- A world with a free mutex and one file, `found.txt`, holding one line. -/
def sampleWorld : World where
  mutexLocked := false
  files := fun name => if name = goStr "found.txt" then some (goStr "old:line\n") else none
  trace := []

/-! ## Digits -/

theorem toDigitsLE_eq_digits (b : Nat) (hb : 2 ≤ b) :
    ∀ fuel n, n ≤ fuel → toDigitsLE b fuel n = Nat.digits b n := by
  intro fuel
  induction fuel with
  | zero =>
    intro n hn
    have : n = 0 := by omega
    subst this
    simp [toDigitsLE]
  | succ fuel ih =>
    intro n hn
    by_cases h0 : n = 0
    · subst h0
      simp [toDigitsLE]
    · have hpos : 0 < n := Nat.pos_of_ne_zero h0
      have hlt : n / b < n := Nat.div_lt_self hpos (by omega)
      rw [toDigitsLE, if_neg h0, ih (n / b) (by omega), Nat.digits_def' (by omega) hpos]

theorem bigBytes_eq (n : Nat) :
    bigBytes n = ((Nat.digits 256 n).map (fun d => (Fin.ofNat d : Byte))).reverse := by
  rw [bigBytes, toDigitsLE_eq_digits 256 (by norm_num) n n le_rfl]

theorem bigSetBytes_eq (b : Bytes) :
    bigSetBytes b = Nat.ofDigits 256 ((b.map (fun x => x.val)).reverse) := by
  induction b using List.reverseRecOn with
  | nil => simp [bigSetBytes]
  | append_singleton l x ih =>
    have : bigSetBytes (l ++ [x]) = bigSetBytes l * 256 + x.val := by
      simp [bigSetBytes, List.foldl_append]
    rw [this, ih]
    simp [Nat.ofDigits_cons]
    ring

theorem bigSetBytes_cons_zero (b : Bytes) : bigSetBytes ((0 : Byte) :: b) = bigSetBytes b := by
  simp [bigSetBytes]

theorem bigSetBytes_lt (b : Bytes) : bigSetBytes b < 256 ^ b.length := by
  rw [bigSetBytes_eq]
  have h := Nat.ofDigits_lt_base_pow_length (b := 256) (l := (b.map (fun x => x.val)).reverse)
    (by norm_num) (by
      intro x hx
      simp only [List.mem_reverse, List.mem_map] at hx
      obtain ⟨y, _, rfl⟩ := hx
      exact y.isLt)
  simpa using h

theorem ofNat_val_byte (x : Byte) : (Fin.ofNat x.val : Byte) = x := by
  apply Fin.ext
  simp [Fin.ofNat, Nat.mod_eq_of_lt x.isLt]

theorem bigBytes_bigSetBytes (b : Bytes) :
    bigBytes (bigSetBytes b) = b.dropWhile (fun i => i = 0) := by
  induction b with
  | nil => simp [bigSetBytes, bigBytes, toDigitsLE]
  | cons x t ih =>
    by_cases hx : x = 0
    · subst hx
      rw [bigSetBytes_cons_zero, ih]
      simp [List.dropWhile]
    · have hdw : (x :: t).dropWhile (fun i => i = 0) = x :: t := by
        simp [List.dropWhile, hx]
      rw [hdw, bigBytes_eq, bigSetBytes_eq, Nat.digits_ofDigits 256 (by norm_num)]
      · simp [List.map_reverse, Function.comp_def, ofNat_val_byte]
      · intro l hl
        simp only [List.mem_reverse, List.mem_map] at hl
        obtain ⟨y, _, rfl⟩ := hl
        exact y.isLt
      · intro _
        simp only [List.map_cons, List.reverse_cons, List.getLast_append_singleton]
        intro h
        exact hx (Fin.ext h)

/-! ## Base 58 -/

theorem b58_alphabet : ∀ d : Fin 58, b58 (alphabet.getD d.val 0) = d.val := by decide

theorem alphabet_eq_idx0 : ∀ d : Fin 58, alphabet.getD d.val 0 = alphabetIdx0 → d.val = 0 := by
  decide

theorem alphabet_zero : alphabet.getD 0 0 = alphabetIdx0 := by decide

theorem b58Value_map (ds : List Nat) (hds : ∀ d ∈ ds, d < 58) (acc : Nat) :
    b58Value (ds.map (fun m => alphabet.getD m 0)) acc
      = some (ds.foldl (fun a d => a * 58 + d) acc) := by
  induction ds generalizing acc with
  | nil => simp [b58Value]
  | cons d t ih =>
    have hd : d < 58 := hds d (by simp)
    have h1 := b58_alphabet ⟨d, hd⟩
    simp only at h1
    simp only [List.map_cons, b58Value, h1, List.foldl_cons]
    rw [if_neg (by omega)]
    exact ih (fun x hx => hds x (by simp [hx])) _

theorem foldl_eq_ofDigits (b : Nat) (ds : List Nat) :
    ds.foldl (fun a d => a * b + d) 0 = Nat.ofDigits b ds.reverse := by
  induction ds using List.reverseRecOn with
  | nil => simp
  | append_singleton l x ih =>
    simp [List.foldl_append, ih, Nat.ofDigits_cons]
    ring

theorem foldl_replicate_zero (z : Nat) :
    (List.replicate z 0).foldl (fun a d => a * 58 + d) 0 = 0 := by
  induction z with
  | zero => simp
  | succ z ih => simpa [List.replicate_succ] using ih

theorem takeWhile_replicate_append (z : Nat) (c : Byte) (s : GoString)
    (hs : ∀ x, s.head? = some x → x ≠ c) :
    ((List.replicate z c ++ s).takeWhile (fun i => i = c)).length = z := by
  induction z with
  | zero =>
    cases s with
    | nil => simp
    | cons x t =>
      have := hs x (by simp)
      simp [List.takeWhile, this]
  | succ z ih => simpa [List.replicate_succ, List.takeWhile] using ih

/-- The shape of an encoded string: the ones for the leading zero bytes, then the
base-58 digits of the value, most significant first. -/
theorem base58Encode_eq (b : Bytes) :
    base58Encode b
      = List.replicate (b.takeWhile (fun i => i = 0)).length alphabetIdx0
        ++ (Nat.digits 58 (bigSetBytes b)).reverse.map (fun m => alphabet.getD m 0) := by
  simp only [base58Encode]
  rw [toDigitsLE_eq_digits 58 (by norm_num) _ _ le_rfl]
  simp [List.map_reverse]

theorem takeWhile_zero_eq_replicate (b : Bytes) :
    b.takeWhile (fun i => i = 0) = List.replicate (b.takeWhile (fun i => i = 0)).length 0 := by
  apply List.eq_replicate_of_mem
  intro x hx
  simpa using List.mem_takeWhile_imp hx

/-- Decoding undoes encoding, leading zero bytes included. -/
theorem base58Decode_base58Encode (b : Bytes) : base58Decode (base58Encode b) = b := by
  have hdig : ∀ d ∈ (Nat.digits 58 (bigSetBytes b)).reverse, d < 58 := by
    intro d hd
    exact Nat.digits_lt_base (by norm_num) (List.mem_reverse.mp hd)
  have hval : b58Value (base58Encode b) 0 = some (bigSetBytes b) := by
    rw [base58Encode_eq, ← alphabet_zero]
    have : List.replicate (b.takeWhile (fun i => i = 0)).length (alphabet.getD 0 0)
        = (List.replicate (b.takeWhile (fun i => i = 0)).length 0).map
            (fun m => alphabet.getD m 0) := by simp
    rw [this, ← List.map_append, b58Value_map]
    · rw [List.foldl_append, foldl_replicate_zero, foldl_eq_ofDigits, List.reverse_reverse,
        Nat.ofDigits_digits]
    · intro d hd
      rcases List.mem_append.mp hd with h | h
      · rw [List.eq_of_mem_replicate h]; norm_num
      · exact hdig d h
  have hzeros : ((base58Encode b).takeWhile (fun c => c = alphabetIdx0)).length
      = (b.takeWhile (fun i => i = 0)).length := by
    rw [base58Encode_eq]
    apply takeWhile_replicate_append
    intro x hx hxc
    subst hxc
    cases hds : (Nat.digits 58 (bigSetBytes b)).reverse with
    | nil => simp [hds] at hx
    | cons d t =>
      simp only [hds, List.map_cons, List.head?_cons, Option.some.injEq] at hx
      have hd58 : d < 58 := hdig d (by simp [hds])
      have hd0 := alphabet_eq_idx0 ⟨d, hd58⟩ hx
      simp only at hd0
      have hne : Nat.digits 58 (bigSetBytes b) ≠ [] := by
        intro h
        simp [h] at hds
      have hlast := Nat.getLast_digit_ne_zero 58 (m := bigSetBytes b)
        (by intro h; exact hne (by simp [h]))
      have : (Nat.digits 58 (bigSetBytes b)).getLast hne = d := by
        have := congrArg List.head? hds
        simp only [List.head?_reverse, List.head?_cons] at this
        rw [List.getLast?_eq_getLast _ hne] at this
        exact Option.some.inj this
      rw [this] at hlast
      exact hlast hd0
  simp only [base58Decode, hval, hzeros, bigBytes_bigSetBytes]
  rw [← takeWhile_zero_eq_replicate]
  exact List.takeWhile_append_dropWhile _ _

/-! ## The address pipeline -/

theorem digits_length_le_of_lt_pow (b m k : Nat) (hb : 1 < b) (h : m < b ^ k) :
    (Nat.digits b m).length ≤ k := by
  by_cases hm : m = 0
  · simp [hm]
  · rw [Nat.digits_len b m hb hm]
    exact Nat.log_lt_of_lt_pow hm h

theorem bigBytes_length (n : Nat) : (bigBytes n).length = (Nat.digits 256 n).length := by
  simp [bigBytes_eq]

theorem base58Encode_length (b : Bytes) :
    (base58Encode b).length
      = (b.takeWhile (fun i => i = 0)).length + (Nat.digits 58 (bigSetBytes b)).length := by
  simp [base58Encode_eq]

theorem digits256_length_bigSetBytes (b : Bytes) :
    (Nat.digits 256 (bigSetBytes b)).length + (b.takeWhile (fun i => i = 0)).length
      = b.length := by
  rw [← bigBytes_length, bigBytes_bigSetBytes]
  conv_rhs => rw [← List.takeWhile_append_dropWhile (fun i => decide (i = 0)) b]
  rw [List.length_append]
  omega

theorem pow_256_le_pow_58 (k : Nat) (hk : k ≤ 24) : 256 ^ k ≤ 58 ^ (k + 9) := by
  interval_cases k <;> norm_num

/-- The payload built by `publicKeyToAddress` before encoding. -/
theorem publicKeyToAddress_eq (H : Hashes) (publicKey : PublicKey) :
    publicKeyToAddress H publicKey
      = .ok (base58Encode
          ((0 : Byte) :: H.ripemd160 (H.sha256 (bigBytes publicKey.X ++ bigBytes publicKey.Y))
            ++ (H.sha256 (H.sha256 ((0 : Byte) ::
                H.ripemd160 (H.sha256 (bigBytes publicKey.X ++ bigBytes publicKey.Y))))).take 4)) := by
  simp [publicKeyToAddress, sha256Checksum]

/-- The bounds on the length of the encoding of 25 bytes of which the first is
zero. -/
theorem base58Encode_shape (t : Bytes) (ht : t.length = 24) :
    (base58Encode ((0 : Byte) :: t)).head? = some alphabetIdx0 ∧
      25 ≤ (base58Encode ((0 : Byte) :: t)).length ∧
      (base58Encode ((0 : Byte) :: t)).length ≤ 34 := by
  have hlen : ((0 : Byte) :: t).length = 25 := by simp [ht]
  have hz1 : 1 ≤ (((0 : Byte) :: t).takeWhile (fun i => i = 0)).length := by
    simp [List.takeWhile]
  have hsum := digits256_length_bigSetBytes ((0 : Byte) :: t)
  rw [hlen] at hsum
  generalize hz : (((0 : Byte) :: t).takeWhile (fun i => i = 0)).length = z at hz1 hsum
  generalize hN : bigSetBytes ((0 : Byte) :: t) = N at hsum
  have hL := base58Encode_length ((0 : Byte) :: t)
  rw [hz, hN] at hL
  refine ⟨?_, ?_, ?_⟩
  · rw [base58Encode_eq, hz]
    obtain ⟨z', rfl⟩ : ∃ z', z = z' + 1 := ⟨z - 1, by omega⟩
    simp [List.replicate_succ]
  · rw [hL]
    have h1 : N < 58 ^ (Nat.digits 58 N).length := Nat.lt_base_pow_length_digits (by norm_num)
    have h2 : 58 ^ (Nat.digits 58 N).length ≤ 256 ^ (Nat.digits 58 N).length :=
      Nat.pow_le_pow_left (by norm_num) _
    have h3 := digits_length_le_of_lt_pow 256 N _ (by norm_num) (lt_of_lt_of_le h1 h2)
    omega
  · rw [hL]
    have h1 : N < 256 ^ (Nat.digits 256 N).length := Nat.lt_base_pow_length_digits (by norm_num)
    have h2 := pow_256_le_pow_58 (Nat.digits 256 N).length (by omega)
    have h3 := digits_length_le_of_lt_pow 58 N _ (by norm_num) (lt_of_lt_of_le h1 h2)
    omega

theorem paddingHashes_wellSized : paddingHashes.WellSized := by
  constructor <;> intro x <;> simp [paddingHashes]

/-- C1 (checksum validity): with digest functions of 32 and 20 bytes, for every
public key the address returned by `publicKeyToAddress` base-58 decodes to exactly
25 bytes, of which the first is 0 and the last 4 are the first 4 bytes of the
SHA-256 of the SHA-256 of the first 21. -/
theorem checksum_validity (H : Hashes) (hH : H.WellSized) (publicKey : PublicKey) :
    ∃ address, publicKeyToAddress H publicKey = .ok address ∧
      (base58Decode address).length = 25 ∧
      (base58Decode address).head? = some 0 ∧
      (base58Decode address).drop 21
        = (H.sha256 (H.sha256 ((base58Decode address).take 21))).take 4 := by
  refine ⟨_, publicKeyToAddress_eq H publicKey, ?_⟩
  rw [base58Decode_base58Encode]
  have hr := hH.2 (H.sha256 (bigBytes publicKey.X ++ bigBytes publicKey.Y))
  generalize H.ripemd160 (H.sha256 (bigBytes publicKey.X ++ bigBytes publicKey.Y)) = r at hr
  have hs := hH.1 (H.sha256 ((0 : Byte) :: r))
  refine ⟨?_, ?_, ?_⟩
  · simp [hr, hs]
  · simp
  · have h21 : ((0 : Byte) :: r).length = 21 := by simp [hr]
    rw [← h21, List.drop_left, List.take_left]

/-- C1 at a concrete key and concrete digest functions. -/
theorem checksum_validity_witness :
    ∃ address, publicKeyToAddress paddingHashes ⟨1, 2⟩ = .ok address ∧
      (base58Decode address).length = 25 ∧
      (base58Decode address).head? = some 0 ∧
      (base58Decode address).drop 21
        = (paddingHashes.sha256 (paddingHashes.sha256 ((base58Decode address).take 21))).take 4 :=
  checksum_validity paddingHashes paddingHashes_wellSized ⟨1, 2⟩

/-- C9 (address shape): with digest functions of 32 and 20 bytes, for every public
key the address returned by `publicKeyToAddress` begins with the character `1` and
has between 25 and 34 characters. -/
theorem address_shape (H : Hashes) (hH : H.WellSized) (publicKey : PublicKey) :
    ∃ address, publicKeyToAddress H publicKey = .ok address ∧
      address.head? = some (Fin.ofNat '1'.toNat) ∧
      25 ≤ address.length ∧ address.length ≤ 34 := by
  refine ⟨_, publicKeyToAddress_eq H publicKey, ?_⟩
  have hr := hH.2 (H.sha256 (bigBytes publicKey.X ++ bigBytes publicKey.Y))
  generalize H.ripemd160 (H.sha256 (bigBytes publicKey.X ++ bigBytes publicKey.Y)) = r at hr
  have hs := hH.1 (H.sha256 ((0 : Byte) :: r))
  rw [List.cons_append]
  exact base58Encode_shape _ (by simp [hr, hs])

/-- C9 at a concrete key and concrete digest functions. -/
theorem address_shape_witness :
    ∃ address, publicKeyToAddress paddingHashes ⟨1, 2⟩ = .ok address ∧
      address.head? = some (Fin.ofNat '1'.toNat) ∧
      25 ≤ address.length ∧ address.length ≤ 34 :=
  address_shape paddingHashes paddingHashes_wellSized ⟨1, 2⟩

/-- C10 (no injectivity on coordinate pairs): the keys `(0x01, 0x0203)` and
`(0x0102, 0x03)` are different, their coordinates concatenate to the same bytes,
and `publicKeyToAddress` returns the same address for both, whatever the digest
functions. -/
theorem address_not_injective :
    (⟨0x01, 0x0203⟩ : PublicKey) ≠ ⟨0x0102, 0x03⟩ ∧
      bigBytes 0x01 ++ bigBytes 0x0203 = bigBytes 0x0102 ++ bigBytes 0x03 ∧
      ∀ H : Hashes, publicKeyToAddress H ⟨0x01, 0x0203⟩ = publicKeyToAddress H ⟨0x0102, 0x03⟩ := by
  have hb : bigBytes 0x01 ++ bigBytes 0x0203 = bigBytes 0x0102 ++ bigBytes 0x03 := by decide
  refine ⟨by decide, hb, ?_⟩
  intro H
  rw [publicKeyToAddress_eq, publicKeyToAddress_eq]
  simp only [hb]

/-! ## The private key in hexadecimal -/

theorem hextable_mem : ∀ i : Fin 16, hextable.getD i.val 0 ∈ goStr "0123456789abcdef" := by
  decide

theorem fromHexChar_hextable : ∀ i : Fin 16, fromHexChar (hextable.getD i.val 0) = some i.val := by
  decide

theorem hextable_eq_zero : ∀ i : Fin 16,
    hextable.getD i.val 0 = (Fin.ofNat '0'.toNat : Byte) → i.val = 0 := by
  decide

theorem hexEncodeToString_length (src : Bytes) :
    (hexEncodeToString src).length = 2 * src.length := by
  induction src with
  | nil => simp [hexEncodeToString]
  | cons v t ih =>
    simp only [hexEncodeToString, List.flatMap_cons, List.length_append, List.length_cons,
      List.length_nil] at ih ⊢
    omega

theorem hexEncodeToString_mem (src : Bytes) :
    ∀ c ∈ hexEncodeToString src, c ∈ goStr "0123456789abcdef" := by
  intro c hc
  simp only [hexEncodeToString, List.mem_flatMap, List.mem_cons, List.mem_singleton,
    List.not_mem_nil, or_false] at hc
  obtain ⟨v, _, rfl | rfl⟩ := hc
  · exact hextable_mem ⟨v.val / 16, by omega⟩
  · exact hextable_mem ⟨v.val % 16, by omega⟩

theorem hexNumeralFrom_hexEncodeToString (src : Bytes) (acc : Nat) :
    hexNumeralFrom (hexEncodeToString src) acc
      = some (src.foldl (fun a x => a * 256 + x.val) acc) := by
  induction src generalizing acc with
  | nil => simp [hexEncodeToString, hexNumeralFrom]
  | cons v t ih =>
    have h1 := fromHexChar_hextable ⟨v.val / 16, by omega⟩
    have h2 := fromHexChar_hextable ⟨v.val % 16, by omega⟩
    simp only at h1 h2
    have hstep : hexEncodeToString (v :: t)
        = hextable.getD (v.val / 16) 0 :: hextable.getD (v.val % 16) 0 :: hexEncodeToString t := by
      simp [hexEncodeToString]
    rw [hstep]
    simp only [hexNumeralFrom, h1, h2, List.foldl_cons]
    rw [ih]
    congr 2
    omega

theorem bigSetBytes_bigBytes (n : Nat) : bigSetBytes (bigBytes n) = n := by
  rw [bigSetBytes_eq, bigBytes_eq]
  have : ((Nat.digits 256 n).map (fun d => (Fin.ofNat d : Byte))).reverse.map (fun x => x.val)
      = (Nat.digits 256 n).reverse := by
    rw [← List.map_reverse, List.map_map]
    conv_rhs => rw [← List.map_id (Nat.digits 256 n).reverse]
    apply List.map_congr_left
    intro d hd
    have : d < 256 := Nat.digits_lt_base (by norm_num) (List.mem_reverse.mp hd)
    simp [Fin.ofNat, Nat.mod_eq_of_lt this]
  rw [this, List.reverse_reverse, Nat.ofDigits_digits]

theorem bitLen_eq (n : Nat) : bitLen n = (Nat.digits 2 n).length := by
  rw [bitLen, toDigitsLE_eq_digits 2 le_rfl n n le_rfl]

/-- The number of bytes of a positive value is its length in bits divided by 8,
rounded up. -/
theorem bigBytes_length_eq_bitLen (n : Nat) : (bigBytes n).length = (bitLen n + 7) / 8 := by
  rw [bigBytes_length, bitLen_eq]
  by_cases hn : n = 0
  · simp [hn]
  · rw [Nat.digits_len 256 n (by norm_num) hn, Nat.digits_len 2 n (by norm_num) hn]
    have h1 : 256 ^ Nat.log 256 n ≤ n := Nat.pow_log_le_self 256 hn
    have h2 : n < 256 ^ (Nat.log 256 n + 1) := Nat.lt_pow_succ_log_self (by norm_num) n
    have e1 : (256 : Nat) ^ Nat.log 256 n = 2 ^ (8 * Nat.log 256 n) := by
      rw [pow_mul]; norm_num
    have e2 : (256 : Nat) ^ (Nat.log 256 n + 1) = 2 ^ (8 * Nat.log 256 n + 8) := by
      rw [show 8 * Nat.log 256 n + 8 = 8 * (Nat.log 256 n + 1) by ring, pow_mul]; norm_num
    rw [e1] at h1
    rw [e2] at h2
    have h3 : 8 * Nat.log 256 n ≤ Nat.log 2 n := Nat.le_log_of_pow_le (by norm_num) h1
    have h4 : Nat.log 2 n < 8 * Nat.log 256 n + 8 := Nat.log_lt_of_lt_pow hn h2
    omega

theorem bigBytes_head_ne_zero (n : Nat) (hn : 1 ≤ n) :
    ∃ x t, bigBytes n = x :: t ∧ x ≠ 0 := by
  have hn0 : n ≠ 0 := by omega
  have hne : Nat.digits 256 n ≠ [] := Nat.digits_ne_nil_iff_ne_zero.mpr hn0
  have hlast := Nat.getLast_digit_ne_zero 256 hn0
  have hlt : (Nat.digits 256 n).getLast hne < 256 :=
    Nat.digits_lt_base (by norm_num) (List.getLast_mem hne)
  refine ⟨Fin.ofNat ((Nat.digits 256 n).getLast hne),
    ((Nat.digits 256 n).dropLast.map (fun d => (Fin.ofNat d : Byte))).reverse, ?_, ?_⟩
  · rw [bigBytes_eq]
    conv_lhs => rw [← List.dropLast_append_getLast hne]
    simp
  · intro h
    have := congrArg Fin.val h
    simp [Fin.ofNat, Nat.mod_eq_of_lt hlt] at this
    exact hlast this

/-- C5 (private-key hex format): for a key with private scalar `D ≥ 1`, the hex
string returned by `generateKeyAndAddress` uses only the characters `0`–`9` and
`a`–`f`, has length `2 * ceil(bitLen D / 8)`, does not start with `00`, and
denotes `D` when read as a base-16 numeral. -/
theorem privateKeyHex_format (H : Hashes) (privateKey : PrivateKey) (hD : 1 ≤ privateKey.D) :
    ∃ hex address, generateKeyAndAddress H (.ok privateKey) = .ok (hex, address) ∧
      (∀ c ∈ hex, c ∈ goStr "0123456789abcdef") ∧
      hex.length = 2 * ((bitLen privateKey.D + 7) / 8) ∧
      hex.take 2 ≠ goStr "00" ∧
      hexNumeral hex = some privateKey.D := by
  have haddr := publicKeyToAddress_eq H privateKey.PublicKey
  generalize base58Encode _ = address at haddr
  refine ⟨hexEncodeToString (bigBytes privateKey.D), address, ?_, hexEncodeToString_mem _,
    ?_, ?_, ?_⟩
  · simp only [generateKeyAndAddress, haddr]
  · rw [hexEncodeToString_length, bigBytes_length_eq_bitLen]
  · obtain ⟨x, t, hxt, hx⟩ := bigBytes_head_ne_zero privateKey.D hD
    rw [hxt]
    intro h
    have h' : [hextable.getD (x.val / 16) 0, hextable.getD (x.val % 16) 0]
        = [(Fin.ofNat '0'.toNat : Byte), (Fin.ofNat '0'.toNat : Byte)] := by
      simpa [hexEncodeToString, goStr] using h
    simp only [List.cons.injEq, and_true] at h'
    have a := hextable_eq_zero ⟨x.val / 16, by omega⟩ h'.1
    have b := hextable_eq_zero ⟨x.val % 16, by omega⟩ h'.2
    simp only at a b
    apply hx
    apply Fin.ext
    show x.val = 0
    omega
  · rw [hexNumeral, hexNumeralFrom_hexEncodeToString]
    exact congrArg some (bigSetBytes_bigBytes privateKey.D)

/-- C5 at the key with scalar `0x0102`: the hex string is `0102`. -/
theorem privateKeyHex_format_witness :
    ∃ hex address, generateKeyAndAddress paddingHashes (.ok ⟨⟨1, 2⟩, 0x0102⟩) = .ok (hex, address) ∧
      (∀ c ∈ hex, c ∈ goStr "0123456789abcdef") ∧
      hex.length = 2 * ((bitLen 0x0102 + 7) / 8) ∧
      hex.take 2 ≠ goStr "00" ∧
      hexNumeral hex = some 0x0102 :=
  privateKeyHex_format paddingHashes ⟨⟨1, 2⟩, 0x0102⟩ (by decide)

/-! ## The target set -/

theorem GoMap.lookup_filter_ne (m : GoMap) (k a : GoString) (h : a ≠ k) :
    GoMap.lookup (m.filter (fun e => !decide (e.1 = k))) a = GoMap.lookup m a := by
  induction m with
  | nil => rfl
  | cons e m ih =>
    obtain ⟨k', v⟩ := e
    by_cases hk : k' = k
    · have hka : ¬k = a := fun e => h e.symm
      subst hk
      simp [List.filter, GoMap.lookup, hka, ih]
    · by_cases hka : k' = a
      · subst hka
        simp [List.filter, hk, GoMap.lookup]
      · simp [List.filter, hk, GoMap.lookup, hka, ih]

theorem GoMap.has_set (m : GoMap) (k a : GoString) (v : Bool) :
    (m.set k v).has a = true ↔ a = k ∨ m.has a = true := by
  by_cases h : k = a
  · simp [GoMap.has, GoMap.set, GoMap.lookup, h]
  · have h' : ¬a = k := fun e => h e.symm
    simp [GoMap.has, GoMap.set, GoMap.lookup, h, h', GoMap.lookup_filter_ne m k a h']

theorem GoMap.has_iff_mem_keys (m : GoMap) (a : GoString) : m.has a = true ↔ a ∈ m.keys := by
  induction m with
  | nil => simp [GoMap.has, GoMap.lookup, GoMap.keys]
  | cons e m ih =>
    obtain ⟨k', v⟩ := e
    by_cases hk : k' = a
    · simp [GoMap.has, GoMap.lookup, GoMap.keys, hk]
    · have hk' : ¬a = k' := fun e => hk e.symm
      have : (GoMap.lookup m a).isSome = true ↔ a ∈ GoMap.keys m := ih
      simp [GoMap.has, GoMap.lookup, GoMap.keys, hk, hk'] at this ⊢
      exact this

theorem GoMap.keys_set_nodup (m : GoMap) (k : GoString) (v : Bool) (h : m.keys.Nodup) :
    (m.set k v).keys.Nodup := by
  simp only [GoMap.set, GoMap.keys, List.map_cons, List.nodup_cons]
  constructor
  · simp
  · exact (List.Nodup.sublist ((List.filter_sublist _).map Prod.fst) h)

theorem addLines_keys_nodup (tokens : List GoString) (m : GoMap) (h : m.keys.Nodup) :
    (addLines tokens m).keys.Nodup := by
  induction tokens generalizing m with
  | nil => exact h
  | cons t ts ih => exact ih (m.set t true) (GoMap.keys_set_nodup m t true h)

theorem GoMap.has_addLines (tokens : List GoString) (m : GoMap) (a : GoString) :
    (addLines tokens m).has a = true ↔ a ∈ tokens ∨ m.has a = true := by
  induction tokens generalizing m with
  | nil => simp [addLines]
  | cons t ts ih =>
    have : addLines (t :: ts) m = addLines ts (m.set t true) := rfl
    rw [this, ih, GoMap.has_set]
    simp only [List.mem_cons]
    tauto

theorem readAddresses_of_scanLines (content : Bytes) (lines : List GoString)
    (h : scanLines content [] = .ok lines) :
    readAddresses (.ok content) = .ok (addLines lines []) := by
  simp [readAddresses, h]

/-- C2 (membership correctness): the set that the loop of `readAddresses` builds
from any list of lines contains a string exactly when it is one of the lines,
whatever their order; duplicate lines collapse, the set having one entry per
distinct line; and whenever the scanner delivers the lines `lines` for a file,
`readAddresses` returns a set with exactly those members. -/
theorem membership_correctness :
    (∀ (lines : List GoString) (a : GoString), (addLines lines []).has a = true ↔ a ∈ lines) ∧
    (∀ lines : List GoString, (addLines lines []).keys.Nodup ∧
      (addLines lines []).len = lines.dedup.length) ∧
    (∀ (content : Bytes) (lines : List GoString), scanLines content [] = .ok lines →
      ∃ set, readAddresses (.ok content) = .ok set ∧ ∀ a, set.has a = true ↔ a ∈ lines) := by
  have key : ∀ (lines : List GoString) (a : GoString),
      (addLines lines []).has a = true ↔ a ∈ lines := by
    intro lines a
    rw [GoMap.has_addLines]
    simp [GoMap.has, GoMap.lookup]
  refine ⟨key, ?_, fun content lines h =>
    ⟨_, readAddresses_of_scanLines content lines h, key lines⟩⟩
  intro lines
  have hnd : (addLines lines []).keys.Nodup := addLines_keys_nodup lines [] (by simp [GoMap.keys])
  refine ⟨hnd, ?_⟩
  have hperm : (addLines lines []).keys.Perm lines.dedup := by
    rw [List.perm_ext_iff_of_nodup hnd (List.nodup_dedup lines)]
    intro a
    rw [← GoMap.has_iff_mem_keys, key, List.mem_dedup]
  have := hperm.length_eq
  simpa [GoMap.len, GoMap.keys] using this

/-- The pieces of a content between its newlines. -/
theorem splitOn_append_left (xs as : Bytes) (h : ∀ x ∈ xs, x ≠ 10) :
    List.splitOn (10 : Byte) (xs ++ as)
      = (List.splitOn (10 : Byte) as).modifyHead (fun l => xs ++ l) := by
  induction xs with
  | nil =>
    cases hp : List.splitOn (10 : Byte) as <;> simp [List.modifyHead, hp]
  | cons x t ih =>
    have hx : x ≠ 10 := h x (by simp)
    have ht : ∀ y ∈ t, y ≠ 10 := fun y hy => h y (by simp [hy])
    have := ih ht
    simp only [List.splitOn] at this ⊢
    rw [List.cons_append, List.splitOnP_cons, this]
    simp only [beq_iff_eq, hx, if_false, Bool.false_eq_true]
    cases List.splitOnP (fun c => c == (10 : Byte)) as <;> simp [List.modifyHead]

theorem splitOn_newline_cons (rest : Bytes) :
    List.splitOn (10 : Byte) (10 :: rest) = [] :: List.splitOn (10 : Byte) rest := by
  simp [List.splitOn]

theorem splitOn_ne_nil (as : Bytes) : List.splitOn (10 : Byte) as ≠ [] :=
  List.splitOnP_ne_nil _ _

theorem splitOn_eq_single (xs : Bytes) (h : ∀ x ∈ xs, x ≠ 10) :
    List.splitOn (10 : Byte) xs = [xs] := by
  apply List.splitOnP_eq_single
  intro x hx
  simpa using h x hx

theorem trimLast_cons (l : Bytes) (ps : List Bytes) (h : ps ≠ []) :
    trimLast (l :: ps) = l :: trimLast ps := by
  obtain ⟨p, ps', rfl⟩ := List.exists_cons_of_ne_nil h
  simp only [trimLast, List.getLast?_cons_cons, List.dropLast_cons₂]
  split <;> rfl

theorem rawLines_eq (content : Bytes) :
    rawLines content = trimLast (List.splitOn (10 : Byte) content) := rfl

theorem mem_of_mem_trimLast (ps : List Bytes) (l : Bytes) (h : l ∈ trimLast ps) : l ∈ ps := by
  unfold trimLast at h
  split at h
  · exact List.mem_of_mem_dropLast h
  · exact h

theorem mem_trimLast_or_nil (ps : List Bytes) (l : Bytes) (h : l ∈ ps) :
    l ∈ trimLast ps ∨ l = [] := by
  unfold trimLast
  split
  · rename_i hlast
    have hne : ps ≠ [] := List.ne_nil_of_mem h
    rw [List.getLast?_eq_getLast _ hne] at hlast
    have hlast' : ps.getLast hne = [] := Option.some.inj hlast
    have hsplit := List.dropLast_append_getLast hne
    rw [← hsplit] at h
    rcases List.mem_append.mp h with h1 | h1
    · exact Or.inl h1
    · right
      rw [List.mem_singleton] at h1
      rw [h1, hlast']
  · exact Or.inl h

/-- What the scanner delivers when no line is too long for its buffer: the pieces
between the newlines, an empty last piece left out, each without its trailing
carriage return. -/
theorem scanLines_eq (content line : Bytes) (hline : ∀ x ∈ line, x ≠ 10)
    (hshort : ∀ l ∈ List.splitOn (10 : Byte) (line ++ content), l.length < maxScanTokenSize) :
    scanLines content line
      = .ok ((trimLast (List.splitOn (10 : Byte) (line ++ content))).map dropCR) := by
  induction content generalizing line with
  | nil =>
    rw [List.append_nil, splitOn_eq_single line hline]
    by_cases hl : line = []
    · simp [scanLines, trimLast, hl]
    · simp [scanLines, trimLast, hl]
  | cons c rest ih =>
    by_cases hc : c = 10
    · subst hc
      have hsp : List.splitOn (10 : Byte) (line ++ 10 :: rest)
          = line :: List.splitOn (10 : Byte) rest := by
        rw [splitOn_append_left line _ hline, splitOn_newline_cons]
        simp [List.modifyHead]
      rw [hsp] at hshort ⊢
      have hrest := ih [] (by simp) (by
        intro l hl
        exact hshort l (by simp at hl ⊢; exact Or.inr hl))
      rw [List.nil_append] at hrest
      rw [trimLast_cons _ _ (splitOn_ne_nil rest)]
      simp [scanLines, hrest]
    · have hline' : ∀ x ∈ line ++ [c], x ≠ 10 := by
        intro x hx
        rcases List.mem_append.mp hx with h | h
        · exact hline x h
        · rw [List.mem_singleton] at h
          rw [h]; exact hc
      have happ : line ++ c :: rest = (line ++ [c]) ++ rest := by simp
      rw [happ] at hshort ⊢
      have hlen : (line ++ [c]).length < maxScanTokenSize := by
        obtain ⟨p, ps, hps⟩ := List.exists_cons_of_ne_nil (splitOn_ne_nil rest)
        have h1 := splitOn_append_left (line ++ [c]) rest hline'
        rw [hps] at h1
        simp only [List.modifyHead] at h1
        have h2 := hshort ((line ++ [c]) ++ p) (by rw [h1]; simp)
        rw [List.length_append] at h2
        omega
      have hlen' : ¬ (line.length + 1 ≥ maxScanTokenSize) := by
        rw [List.length_append] at hlen
        simpa using hlen
      rw [scanLines, if_neg hc, if_neg hlen']
      exact ih (line ++ [c]) hline' hshort

/-- C8, amended: for a file content none of whose lines has `maxScanTokenSize`
bytes or more, `readAddresses` succeeds, and the members of the set it builds are
exactly the newline-delimited lines of the content with one trailing carriage
return, when there is one, dropped; nothing else is removed from a line. -/
theorem lines_without_trailing_cr (content : Bytes)
    (hshort : ∀ l ∈ rawLines content, l.length < maxScanTokenSize) :
    ∃ set, readAddresses (.ok content) = .ok set ∧
      ∀ a, set.has a = true ↔ a ∈ (rawLines content).map dropCR := by
  have hscan : scanLines content [] = .ok ((rawLines content).map dropCR) := by
    have := scanLines_eq content [] (by simp) (by
      intro l hl
      rw [List.nil_append] at hl
      rcases mem_trimLast_or_nil _ l hl with h | h
      · exact hshort l h
      · rw [h]; decide)
    rwa [List.nil_append] at this
  refine ⟨_, readAddresses_of_scanLines content _ hscan, ?_⟩
  intro a
  rw [GoMap.has_addLines]
  simp [GoMap.has, GoMap.lookup]

/-- C8, amended, at a content of three lines, two of which end in a carriage
return. -/
theorem lines_without_trailing_cr_witness :
    ∃ set, readAddresses (.ok (goStr "a\r\nb \n\tc\r")) = .ok set ∧
      ∀ a, set.has a = true ↔ a ∈ (rawLines (goStr "a\r\nb \n\tc\r")).map dropCR :=
  lines_without_trailing_cr (goStr "a\r\nb \n\tc\r") (by decide)

/-- A line too long for the scanner's buffer makes the scan fail. -/
theorem scanLines_tooLong (content line : Bytes) (hline : ∀ x ∈ line, x ≠ 10)
    (hlen : line.length < maxScanTokenSize)
    (hlong : ∃ l ∈ List.splitOn (10 : Byte) (line ++ content), maxScanTokenSize ≤ l.length) :
    scanLines content line = .error errTooLong := by
  induction content generalizing line with
  | nil =>
    rw [List.append_nil, splitOn_eq_single line hline] at hlong
    obtain ⟨l, hl, hll⟩ := hlong
    rw [List.mem_singleton] at hl
    subst hl
    omega
  | cons c rest ih =>
    by_cases hc : c = 10
    · subst hc
      have hsp : List.splitOn (10 : Byte) (line ++ 10 :: rest)
          = line :: List.splitOn (10 : Byte) rest := by
        rw [splitOn_append_left line _ hline, splitOn_newline_cons]
        simp [List.modifyHead]
      rw [hsp] at hlong
      obtain ⟨l, hl, hll⟩ := hlong
      have hrest : l ∈ List.splitOn (10 : Byte) ([] ++ rest) := by
        rcases List.mem_cons.mp hl with h | h
        · subst h; omega
        · simpa using h
      have := ih [] (by simp) (by decide) ⟨l, hrest, hll⟩
      simp [scanLines, this]
    · by_cases hfull : line.length + 1 ≥ maxScanTokenSize
      · rw [scanLines, if_neg hc, if_pos hfull]
      · rw [scanLines, if_neg hc, if_neg hfull]
        apply ih
        · intro x hx
          rcases List.mem_append.mp hx with h | h
          · exact hline x h
          · rw [List.mem_singleton] at h
            rw [h]; exact hc
        · rw [List.length_append]
          simpa using hfull
        · simpa using hlong

/-- A file with a line of `maxScanTokenSize` bytes or more is refused by
`readAddresses`. -/
theorem readAddresses_tooLong (content : Bytes)
    (hlong : ∃ l ∈ rawLines content, maxScanTokenSize ≤ l.length) :
    readAddresses (.ok content) = .error errTooLong := by
  obtain ⟨l, hl, hll⟩ := hlong
  have := scanLines_tooLong content [] (by simp) (by decide)
    ⟨l, by simpa using mem_of_mem_trimLast _ l hl, hll⟩
  simp [readAddresses, this]

/-- A content of `n` bytes `x` without a newline is refused once `n` reaches
`maxScanTokenSize`. -/
theorem readAddresses_unbroken (n : Nat) (hn : maxScanTokenSize ≤ n) :
    readAddresses (.ok (List.replicate n (Fin.ofNat 'x'.toNat))) = .error errTooLong := by
  apply readAddresses_tooLong
  refine ⟨List.replicate n (Fin.ofNat 'x'.toNat), ?_, by rw [List.length_replicate]; exact hn⟩
  have hsplit : List.splitOn (10 : Byte) (List.replicate n (Fin.ofNat 'x'.toNat))
      = [List.replicate n (Fin.ofNat 'x'.toNat)] := by
    apply splitOn_eq_single
    intro y hy
    rw [List.eq_of_mem_replicate hy]
    decide
  have hne : List.replicate n (Fin.ofNat 'x'.toNat : Byte) ≠ [] := by
    intro h
    have := congrArg List.length h
    rw [List.length_replicate, List.length_nil] at this
    rw [this] at hn
    exact absurd hn (by decide)
  rw [rawLines, hsplit, trimLast, List.getLast?_singleton, if_neg, List.mem_singleton]
  intro h
  exact hne (Option.some.inj h)

/-- C8 at two contents. For `a\r\n`, whose one line as written is `a\r`, the set
that `readAddresses` builds holds `a` and does not hold `a\r`. For a single line of
65536 bytes `x`, `readAddresses` builds no set: it returns the scanner's error. -/
theorem lines_as_written_counterexample :
    (rawLines (goStr "a\r\n") = [goStr "a\r"] ∧
      ∃ set, readAddresses (.ok (goStr "a\r\n")) = .ok set ∧
        set.has (goStr "a\r") = false ∧ set.has (goStr "a") = true) ∧
    readAddresses (.ok (List.replicate 65536 (Fin.ofNat 'x'.toNat))) = .error errTooLong :=
  ⟨⟨by decide, [(goStr "a", true)], by decide, by decide, by decide⟩,
    readAddresses_unbroken 65536 (by decide)⟩

theorem bitLen_eq_size (n : Nat) : bitLen n = Nat.size n := by
  rw [bitLen_eq, Nat.digits_two_eq_bits, List.length_map, Nat.size_eq_bits_len]

/-! ## The worker loop -/

theorem emit_trace (w : World) (e : Event) : (w.emit e).trace = w.trace ++ [e] := rfl

theorem emit_mutexLocked (w : World) (e : Event) : (w.emit e).mutexLocked = w.mutexLocked := rfl

theorem emit_files (w : World) (e : Event) : (w.emit e).files = w.files := rfl

/-- C3 (end-to-end match): in an iteration that starts with the mutex free, in
which key generation yields the hex string `h` and the address `A`, `A` is in the
target set, and opening and writing the output file succeed, the iteration
completes, the output file afterwards holds its content from before followed by
exactly the line `h:A\n`, the write is the only write of the iteration, and no
other file changes. -/
theorem match_appends_one_line (H : Hashes) (id : Int) (outputFile : GoString)
    (btcAddresses : GoMap) (env : Env) (w : World) (h A : GoString)
    (hgen : generateKeyAndAddress H env.rnd = .ok (h, A))
    (hmem : btcAddresses.has A = true)
    (hfree : w.mutexLocked = false)
    (hopen : env.openErr = none)
    (hwrite : env.writeErr = none) :
    ∃ w', workerIteration H id outputFile btcAddresses env w = .next w' ∧
      w'.files outputFile
        = some ((w.files outputFile).getD [] ++ (h ++ goStr ":" ++ A ++ goStr "\n")) ∧
      (∀ name, name ≠ outputFile → w'.files name = w.files name) ∧
      w'.trace = w.trace ++
        [.printMatchFound h A, .mutexLock, .openFile outputFile,
          .writeString (h ++ goStr ":" ++ A ++ goStr "\n"), .fileClose, .mutexUnlock,
          .printAttempt h A (goStr "Yes"), .sleep 100] := by
  simp only [workerIteration, hgen, hmem, hopen, hwrite, emit_mutexLocked, hfree, reportAndSleep,
    ↓reduceIte, Bool.false_eq_true]
  refine ⟨_, rfl, ?_, ?_, ?_⟩
  · simp [World.append, World.openAppend, World.emit]
  · intro name hname
    simp [World.append, World.openAppend, World.emit, Function.update, hname]
  · simp [World.append, World.openAppend, World.emit]

/-- C3 at `sampleKey`, whose address is the one target, with `found.txt` as the
output file. -/
theorem match_appends_one_line_witness :
    ∃ w', workerIteration paddingHashes 7 (goStr "found.txt") [(sampleAddress, true)]
        ⟨.ok sampleKey, none, none⟩ sampleWorld = .next w' ∧
      w'.files (goStr "found.txt")
        = some ((sampleWorld.files (goStr "found.txt")).getD []
            ++ (goStr "0102" ++ goStr ":" ++ sampleAddress ++ goStr "\n")) ∧
      (∀ name, name ≠ goStr "found.txt" → w'.files name = sampleWorld.files name) ∧
      w'.trace = sampleWorld.trace ++
        [.printMatchFound (goStr "0102") sampleAddress, .mutexLock, .openFile (goStr "found.txt"),
          .writeString (goStr "0102" ++ goStr ":" ++ sampleAddress ++ goStr "\n"), .fileClose,
          .mutexUnlock, .printAttempt (goStr "0102") sampleAddress (goStr "Yes"), .sleep 100] :=
  match_appends_one_line paddingHashes 7 (goStr "found.txt") [(sampleAddress, true)]
    ⟨.ok sampleKey, none, none⟩ sampleWorld (goStr "0102") sampleAddress
    (by decide) (by decide) rfl rfl rfl

/-- C4 (no false positives): in an iteration whose derived address is not in the
target set, no file changes, the mutex is left as it was and is never acquired,
and nothing is written: the iteration only reports the attempt and sleeps. -/
theorem no_false_positive (H : Hashes) (id : Int) (outputFile : GoString)
    (btcAddresses : GoMap) (env : Env) (w : World) (h A : GoString)
    (hgen : generateKeyAndAddress H env.rnd = .ok (h, A))
    (hnot : btcAddresses.has A = false) :
    ∃ w' evs, workerIteration H id outputFile btcAddresses env w = .next w' ∧
      w'.files = w.files ∧
      w'.mutexLocked = w.mutexLocked ∧
      w'.trace = w.trace ++ evs ∧
      Event.mutexLock ∉ evs ∧
      (∀ s, Event.writeString s ∉ evs) ∧
      evs = [.printAttempt h A (goStr "No"), .sleep 100] := by
  simp only [workerIteration, hgen, hnot, reportAndSleep, ↓reduceIte, Bool.false_eq_true]
  refine ⟨_, [.printAttempt h A (goStr "No"), .sleep 100], rfl, rfl, rfl, ?_, ?_, ?_, rfl⟩
  · simp [World.emit]
  · simp
  · simp

/-- C4 at `sampleKey` with a target set of two other addresses. -/
theorem no_false_positive_witness :
    ∃ w' evs, workerIteration paddingHashes 7 (goStr "found.txt")
        [(goStr "1A1zP1eP5QGefi2DMPTfTL5SLmv7DivfNa", true), (goStr "1BoatSLRHtKNngkdXEeobR76b53LETtpyT", true)]
        ⟨.ok sampleKey, none, none⟩ sampleWorld = .next w' ∧
      w'.files = sampleWorld.files ∧
      w'.mutexLocked = sampleWorld.mutexLocked ∧
      w'.trace = sampleWorld.trace ++ evs ∧
      Event.mutexLock ∉ evs ∧
      (∀ s, Event.writeString s ∉ evs) ∧
      evs = [.printAttempt (goStr "0102") sampleAddress (goStr "No"), .sleep 100] :=
  no_false_positive paddingHashes 7 (goStr "found.txt")
    [(goStr "1A1zP1eP5QGefi2DMPTfTL5SLmv7DivfNa", true), (goStr "1BoatSLRHtKNngkdXEeobR76b53LETtpyT", true)]
    ⟨.ok sampleKey, none, none⟩ sampleWorld (goStr "0102") sampleAddress (by decide) (by decide)

/-- C6 at a failing input: the derived address is in the target set and
`os.OpenFile` fails. The iteration logs the failure, unlocks and starts over; the
events it leaves hold no report of the attempt. -/
theorem report_skipped_when_open_fails :
    ∃ w', workerIteration paddingHashes 7 (goStr "found.txt") [(sampleAddress, true)]
        ⟨.ok sampleKey, some (goStr "permission denied"), none⟩ sampleWorld = .next w' ∧
      w'.trace =
        [.printMatchFound (goStr "0102") sampleAddress, .mutexLock, .openFile (goStr "found.txt"),
          .logOpenFailed 7 (goStr "permission denied"), .mutexUnlock] ∧
      (w'.trace.filter Event.isReport).length = 0 :=
  ⟨_, rfl, by decide, by decide⟩

/-- C7 (lock release on every exit path): an iteration that starts with the mutex
free completes with the mutex free, whatever the key generation, the membership
test, the open and the write do; and along its events the mutex is locked at most
once, unlocked after each lock, and held exactly during the file steps. -/
theorem mutex_released (H : Hashes) (id : Int) (outputFile : GoString)
    (btcAddresses : GoMap) (env : Env) (w : World) (hfree : w.mutexLocked = false) :
    ∃ w' evs, workerIteration H id outputFile btcAddresses env w = .next w' ∧
      w'.mutexLocked = false ∧
      w'.trace = w.trace ++ evs ∧
      lockScoped false evs = true ∧
      (evs.filter (fun e => e = Event.mutexLock)).length ≤ 1 := by
  obtain ⟨rnd, openErr, writeErr⟩ := env
  cases hgen : generateKeyAndAddress H rnd with
  | error err =>
    simp only [workerIteration, hgen]
    exact ⟨_, [.logGenerateFailed id err], rfl, hfree, rfl, rfl, by simp⟩
  | ok pair =>
    obtain ⟨h, A⟩ := pair
    cases hmem : btcAddresses.has A with
    | false =>
      simp only [workerIteration, hgen, hmem, reportAndSleep, ↓reduceIte, Bool.false_eq_true]
      exact ⟨_, [.printAttempt h A (goStr "No"), .sleep 100], rfl, hfree, by simp [World.emit],
        rfl, by simp⟩
    | true =>
      cases openErr with
      | some err =>
        simp only [workerIteration, hgen, hmem, emit_mutexLocked, hfree, ↓reduceIte,
          Bool.false_eq_true]
        exact ⟨_, [.printMatchFound h A, .mutexLock, .openFile outputFile,
          .logOpenFailed id err, .mutexUnlock], rfl, rfl, by simp [World.emit], rfl, by simp⟩
      | none =>
        cases writeErr with
        | none =>
          simp only [workerIteration, hgen, hmem, emit_mutexLocked, hfree, reportAndSleep,
            ↓reduceIte, Bool.false_eq_true]
          exact ⟨_, [.printMatchFound h A, .mutexLock, .openFile outputFile,
            .writeString (h ++ goStr ":" ++ A ++ goStr "\n"), .fileClose, .mutexUnlock,
            .printAttempt h A (goStr "Yes"), .sleep 100], rfl, rfl,
            by simp [World.append, World.openAppend, World.emit], rfl, by simp⟩
        | some failure =>
          obtain ⟨n, err⟩ := failure
          simp only [workerIteration, hgen, hmem, emit_mutexLocked, hfree, reportAndSleep,
            ↓reduceIte, Bool.false_eq_true]
          exact ⟨_, [.printMatchFound h A, .mutexLock, .openFile outputFile,
            .writeString ((h ++ goStr ":" ++ A ++ goStr "\n").take n), .logWriteFailed id err,
            .fileClose, .mutexUnlock, .printAttempt h A (goStr "Yes"), .sleep 100], rfl, rfl,
            by simp [World.append, World.openAppend, World.emit], rfl, by simp⟩

/-- C7 at an iteration whose write fails after three bytes. -/
theorem mutex_released_witness :
    ∃ w' evs, workerIteration paddingHashes 7 (goStr "found.txt") [(sampleAddress, true)]
        ⟨.ok sampleKey, none, some (3, goStr "no space left on device")⟩ sampleWorld = .next w' ∧
      w'.mutexLocked = false ∧
      w'.trace = sampleWorld.trace ++ evs ∧
      lockScoped false evs = true ∧
      (evs.filter (fun e => e = Event.mutexLock)).length ≤ 1 :=
  mutex_released paddingHashes 7 (goStr "found.txt") [(sampleAddress, true)]
    ⟨.ok sampleKey, none, some (3, goStr "no space left on device")⟩ sampleWorld rfl

/-- On every path other than a failed open the attempt is reported exactly once:
when key generation succeeds, the mutex is free, and the open does not fail, the
events of the iteration hold one report, with the match flag of the membership
test, whether or not the write fails. -/
theorem report_once_unless_open_fails (H : Hashes) (id : Int) (outputFile : GoString)
    (btcAddresses : GoMap) (env : Env) (w : World) (h A : GoString)
    (hgen : generateKeyAndAddress H env.rnd = .ok (h, A))
    (hfree : w.mutexLocked = false)
    (hopen : env.openErr = none) :
    ∃ w' evs, workerIteration H id outputFile btcAddresses env w = .next w' ∧
      w'.trace = w.trace ++ evs ∧
      evs.filter Event.isReport
        = [.printAttempt h A (if btcAddresses.has A then goStr "Yes" else goStr "No")] := by
  obtain ⟨rnd, openErr, writeErr⟩ := env
  simp only at hgen hopen
  subst hopen
  cases hmem : btcAddresses.has A with
  | false =>
    simp only [workerIteration, hgen, hmem, reportAndSleep, ↓reduceIte, Bool.false_eq_true]
    exact ⟨_, [.printAttempt h A (goStr "No"), .sleep 100], rfl, by simp [World.emit], rfl⟩
  | true =>
    cases writeErr with
    | none =>
      simp only [workerIteration, hgen, hmem, emit_mutexLocked, hfree, reportAndSleep,
        ↓reduceIte, Bool.false_eq_true]
      exact ⟨_, [.printMatchFound h A, .mutexLock, .openFile outputFile,
        .writeString (h ++ goStr ":" ++ A ++ goStr "\n"), .fileClose, .mutexUnlock,
        .printAttempt h A (goStr "Yes"), .sleep 100], rfl,
        by simp [World.append, World.openAppend, World.emit], rfl⟩
    | some failure =>
      obtain ⟨n, err⟩ := failure
      simp only [workerIteration, hgen, hmem, emit_mutexLocked, hfree, reportAndSleep,
        ↓reduceIte, Bool.false_eq_true]
      exact ⟨_, [.printMatchFound h A, .mutexLock, .openFile outputFile,
        .writeString ((h ++ goStr ":" ++ A ++ goStr "\n").take n), .logWriteFailed id err,
        .fileClose, .mutexUnlock, .printAttempt h A (goStr "Yes"), .sleep 100], rfl,
        by simp [World.append, World.openAppend, World.emit], rfl⟩

end Btcsearch
